import Mathlib

/-!
Verification of the SBM graph generator (`sbm/stochastic_block_model.py`).

The combinatorial core (`_get_edge_from_sample_num`, `_get_num_pos_edges`) is
embedded as pure functions over `ℕ`.  Python's `math.sqrt` / float division in
the triangular branches are modelled by exact real arithmetic: the floor of
`(1 + √(1 + 8 r)) / 2` is `(1 + Nat.sqrt (1 + 8 r)) / 2` (proved sound below),
and the `/ 2` divisions there are exact on the integers they are applied to.
The sampling layer (`_generate_sbm_edges`, `sbm_adjmat`, `ssbm_adjmat`) is
embedded with an explicit random source (streams `σ` for `random.choice` and
`β` for `np.random.binomial`, with a position counter), a fuel bound for the
rejection loops (`timeout` when exhausted), and an error result modelling the
exceptions that `numpy` / Python list indexing raise.
-/

namespace SBM

/-- Largest `s ≤ t` with `s * s ≤ x` (structural recursion, so it evaluates
in the kernel). -/
def sqrtUp : ℕ → ℕ → ℕ
  | 0, _ => 0
  | t + 1, x => if (t + 1) * (t + 1) ≤ x then t + 1 else sqrtUp t x

/-- Integer square root: `⌊√x⌋`. -/
def natSqrt (x : ℕ) : ℕ := sqrtUp x x

/-- `⌊(1 + √(1 + 8 r)) / 2⌋`: the value `math.floor(n)` computed in the two
triangular branches of `_get_edge_from_sample_num` (with the IEEE `math.sqrt`
modelled as an exact real square root; `⌊(1 + √x) / 2⌋ = (1 + ⌊√x⌋) / 2`
because `(1 + y) / 2` takes the same integer value for all reals
`⌊√x⌋ ≤ y < ⌊√x⌋ + 1`). -/
def floorTri (r : ℕ) : ℕ := (1 + natSqrt (1 + 8 * r)) / 2

/-- Embedding of `_get_edge_from_sample_num`.  The final `raise Exception`
branch is represented by `none`.  Note the source's mixed use of `c1_size` and
`c2_size` (e.g. `edge_num % c1_size` in the first branch) is kept verbatim. -/
def get_edge_from_sample_num (edge_num c1_size c2_size : ℕ)
    (same_cluster self_loops directed : Bool) : Option (ℕ × ℕ) :=
  if !same_cluster || (directed && self_loops) then
    some (edge_num / c2_size, edge_num % c1_size)
  else if directed && !self_loops then
    let u := edge_num / (c2_size - 1)
    let v := edge_num % (c1_size - 1)
    some (u, if v ≥ u then v + 1 else v)
  else if !directed then
    if self_loops then
      let m := floorTri edge_num
      some (m - 1, edge_num - m * (m - 1) / 2)
    else
      let u := floorTri edge_num
      some (u, edge_num - u * (u - 1) / 2)
  else
    none

/-- Embedding of `_get_num_pos_edges`. -/
def get_num_pos_edges (c1_size c2_size : ℕ)
    (same_cluster self_loops directed : Bool) : ℕ :=
  if !same_cluster then
    c1_size * c2_size
  else
    let base := c1_size * (c1_size - 1) / 2
    let base := if self_loops then base + c1_size else base
    let base := if directed then 2 * base else base
    if directed && self_loops then base - c1_size else base

/-- The "virtual list" of the unit test for two different clusters (and for the
same cluster with `directed` and `self_loops`): all pairs in row-major order. -/
def prodList (s1 s2 : ℕ) : List (ℕ × ℕ) :=
  (List.range s1).flatMap (fun x => (List.range s2).map (fun y => (x, y)))

/-- The unit test's virtual list for the same cluster, directed, no
self-loops: all pairs off the diagonal, in row-major order. -/
def offDiagList (s : ℕ) : List (ℕ × ℕ) :=
  (List.range s).flatMap (fun x =>
    ((List.range s).filter (fun y => x ≠ y)).map (fun y => (x, y)))

/-- The unit test's virtual list for the same cluster, undirected, with
self-loops: `(0,0),(1,0),(1,1),(2,0),(2,1),(2,2),(3,0),...`. -/
def triLoopList (s : ℕ) : List (ℕ × ℕ) :=
  (List.range s).flatMap (fun i => (List.range (i + 1)).map (fun j => (i, j)))

/-- The unit test's virtual list for the same cluster, undirected, no
self-loops: `(1,0),(2,0),(2,1),(3,0),...`. -/
def triList (s : ℕ) : List (ℕ × ℕ) :=
  (List.range s).flatMap (fun i => (List.range i).map (fun j => (i, j)))

example : get_edge_from_sample_num 2 2 3 false false false = some (0, 0) := by decide

example : (List.range 15).map
    (fun r => get_edge_from_sample_num r 5 5 true true false) =
    (triLoopList 5).map some := by decide

example : (List.range 10).map
    (fun r => get_edge_from_sample_num r 5 5 true false false) =
    (triList 5).map some := by decide

example : (List.range 20).map
    (fun r => get_edge_from_sample_num r 5 5 true false true) =
    (offDiagList 5).map some := by decide

example : get_num_pos_edges 5 3 false false false = 15 := by decide
example : get_num_pos_edges 5 5 true false false = 10 := by decide
example : get_num_pos_edges 5 5 true true false = 15 := by decide
example : get_num_pos_edges 5 5 true false true = 20 := by decide
example : get_num_pos_edges 5 5 true true true = 25 := by decide

/-! ### Arithmetic facts about the integer square root and the counts -/

lemma sqrtUp_sq_le (t x : ℕ) : sqrtUp t x * sqrtUp t x ≤ x := by
  induction t with
  | zero => simp [sqrtUp]
  | succ t ih =>
    rw [sqrtUp]
    split
    · assumption
    · exact ih

lemma lt_sqrtUp_succ (t x : ℕ) (hx : x < (t + 1) * (t + 1)) :
    x < (sqrtUp t x + 1) * (sqrtUp t x + 1) := by
  induction t with
  | zero => simpa [sqrtUp] using hx
  | succ t ih =>
    rw [sqrtUp]
    split
    · exact hx
    · exact ih (by omega)

lemma natSqrt_sq_le (x : ℕ) : natSqrt x * natSqrt x ≤ x := sqrtUp_sq_le x x

lemma lt_natSqrt_succ (x : ℕ) : x < (natSqrt x + 1) * (natSqrt x + 1) :=
  lt_sqrtUp_succ x x (by nlinarith)

lemma even_mul_pred (m : ℕ) : Even (m * (m - 1)) := by
  cases m with
  | zero => simp
  | succ j => simpa [Nat.succ_sub_one, Nat.mul_comm] using Nat.even_mul_succ_self j

/-- The key bracketing fact: for a rank `r` in the `m`-th triangular block,
the quadratic-formula decode returns exactly `m`. -/
lemma floorTri_eq (m r : ℕ) (h1 : m * (m - 1) / 2 ≤ r) (h2 : r < m * (m + 1) / 2) :
    floorTri r = m := by
  cases m with
  | zero => simp at h2
  | succ j =>
    obtain ⟨k, hk⟩ := even_mul_pred (j + 1)
    have hj : (j + 1) * (j + 1 - 1) = j * (j + 1) := by
      simp [Nat.succ_sub_one, Nat.mul_comm]
    have hk' : j * (j + 1) = k + k := by rw [← hj, hk]
    have h1' : k ≤ r := by
      rw [hj, hk'] at h1
      omega
    have hq : (j + 1) * (j + 1 + 1) = j * (j + 1) + 2 * (j + 1) := by ring
    have h2' : r < k + (j + 1) := by
      rw [hq, hk'] at h2
      omega
    set t := natSqrt (1 + 8 * r) with ht
    have hts : t * t ≤ 1 + 8 * r := natSqrt_sq_le _
    have htl : 1 + 8 * r < (t + 1) * (t + 1) := lt_natSqrt_succ _
    have hlow : 2 * j + 1 ≤ t := by
      by_contra hcon
      have h1t : t + 1 ≤ 2 * j + 1 := by omega
      have : (t + 1) * (t + 1) ≤ (2 * j + 1) * (2 * j + 1) :=
        Nat.mul_le_mul h1t h1t
      have hsq : (2 * j + 1) * (2 * j + 1) = 4 * (j * (j + 1)) + 1 := by ring
      rw [hsq, hk'] at this
      omega
    have hhigh : t ≤ 2 * j + 2 := by
      by_contra hcon
      have h1t : 2 * j + 3 ≤ t := by omega
      have : (2 * j + 3) * (2 * j + 3) ≤ t * t := Nat.mul_le_mul h1t h1t
      have hsq : (2 * j + 3) * (2 * j + 3) = 4 * (j * (j + 1)) + 8 * (j + 1) + 1 := by
        ring
      rw [hsq, hk'] at this
      omega
    show (1 + t) / 2 = j + 1
    omega

lemma npe_diff (sa sb : ℕ) (loops dir : Bool) :
    get_num_pos_edges sa sb false loops dir = sa * sb := rfl

lemma npe_uu (s : ℕ) : get_num_pos_edges s s true false false = s * (s - 1) / 2 := rfl

lemma npe_ul (s : ℕ) :
    get_num_pos_edges s s true true false = s * (s - 1) / 2 + s := rfl

lemma npe_du (s : ℕ) : get_num_pos_edges s s true false true = s * (s - 1) := by
  show 2 * (s * (s - 1) / 2) = s * (s - 1)
  obtain ⟨k, hk⟩ := even_mul_pred s
  omega

lemma npe_dl (s : ℕ) : get_num_pos_edges s s true true true = s ^ 2 := by
  show 2 * (s * (s - 1) / 2 + s) - s = s ^ 2
  obtain ⟨k, hk⟩ := even_mul_pred s
  have hs : s * (s - 1) + s = s * s := by
    cases s with
    | zero => simp
    | succ j =>
      simp only [Nat.succ_sub_one]
      ring
  rw [pow_two]
  omega

/-! ### Decomposing a range into row blocks -/

lemma flatMap_congr_left {α β : Type} (l : List α) (f g : α → List β)
    (h : ∀ a ∈ l, f a = g a) : l.flatMap f = l.flatMap g := by
  induction l with
  | nil => rfl
  | cons x xs ih =>
    rw [List.flatMap_cons, List.flatMap_cons, h x (by simp),
      ih (fun a ha => h a (by simp [ha]))]

lemma range_mul_map {α : Type} (f : ℕ → α) (n m : ℕ) :
    (List.range (n * m)).map f =
      (List.range n).flatMap (fun i => (List.range m).map (fun j => f (m * i + j))) := by
  induction n with
  | zero => simp
  | succ n ih =>
    rw [show (n + 1) * m = n * m + m from by ring, List.range_add, List.map_append,
      List.range_succ, List.flatMap_append, ← ih]
    simp only [List.flatMap_cons, List.flatMap_nil, List.append_nil, List.map_map]
    congr 1
    apply List.map_congr_left
    intro a _
    simp [Function.comp, Nat.mul_comm]

lemma tri_succ (n : ℕ) : (n + 1) * (n + 2) / 2 = n * (n + 1) / 2 + (n + 1) := by
  have h : (n + 1) * (n + 2) = n * (n + 1) + (n + 1) * 2 := by ring
  rw [h, Nat.add_mul_div_right _ _ (by norm_num : (0 : ℕ) < 2)]

lemma range_tri_map {α : Type} (f : ℕ → α) (n : ℕ) :
    (List.range (n * (n + 1) / 2)).map f =
      (List.range n).flatMap
        (fun i => (List.range (i + 1)).map (fun j => f (i * (i + 1) / 2 + j))) := by
  induction n with
  | zero => simp
  | succ n ih =>
    rw [List.range_succ, List.flatMap_append, ← ih]
    simp only [List.flatMap_cons, List.flatMap_nil, List.append_nil]
    rw [show (n + 1) * (n + 1 + 1) / 2 = n * (n + 1) / 2 + (n + 1) from tri_succ n,
      List.range_add, List.map_append, List.map_map]
    congr 1

lemma filter_ne_range (s i : ℕ) (hi : i < s) :
    (List.range s).filter (fun y => i ≠ y) =
      (List.range (s - 1)).map (fun j => if i ≤ j then j + 1 else j) := by
  induction s with
  | zero => omega
  | succ s ih =>
    rcases Nat.lt_succ_iff_lt_or_eq.mp hi with h | h
    · have hs1 : 1 ≤ s := by omega
      rw [List.range_succ, List.filter_append, ih h,
        show s + 1 - 1 = (s - 1) + 1 from by omega, List.range_succ, List.map_append]
      have hne : i ≠ s := Nat.ne_of_lt h
      have hle : i ≤ s - 1 := by omega
      simp [hne, hle, show s - 1 + 1 = s from by omega]
    · subst h
      rw [List.range_succ, List.filter_append]
      have h1 : (List.range i).filter (fun y => i ≠ y) = List.range i := by
        rw [List.filter_eq_self]
        intro a ha
        simp only [List.mem_range] at ha
        simp [Nat.ne_of_gt ha]
      have h2 : (List.range (i + 1 - 1)).map (fun j => if i ≤ j then j + 1 else j) =
          List.range i := by
        simp only [Nat.add_sub_cancel]
        have hmc : ∀ a ∈ List.range i, (if i ≤ a then a + 1 else a) = a := by
          intro a ha
          simp only [List.mem_range] at ha
          simp [Nat.not_le_of_lt ha]
        rw [List.map_congr_left hmc]
        simp
      rw [h1, h2]
      simp

/-! ### The decode functions enumerate the virtual lists in order -/

lemma prod_decode (s1 s2 : ℕ) (h2 : 0 < s2) :
    (List.range (s1 * s2)).map (fun r => ((r / s2 : ℕ), r % s2)) = prodList s1 s2 := by
  rw [range_mul_map (fun r => ((r / s2 : ℕ), r % s2)) s1 s2]
  unfold prodList
  apply flatMap_congr_left
  intro i _
  apply List.map_congr_left
  intro j hj
  simp only [List.mem_range] at hj
  rw [Nat.mul_add_div h2, Nat.mul_add_mod, Nat.div_eq_of_lt hj, Nat.mod_eq_of_lt hj,
    Nat.add_zero]

lemma offDiag_decode (s : ℕ) :
    (List.range (s * (s - 1))).map
        (fun r => ((r / (s - 1) : ℕ),
          if r / (s - 1) ≤ r % (s - 1) then r % (s - 1) + 1 else r % (s - 1))) =
      offDiagList s := by
  match s with
  | 0 => decide
  | 1 => decide
  | (t + 2) =>
    have hpos : 0 < t + 2 - 1 := by omega
    rw [range_mul_map]
    unfold offDiagList
    apply flatMap_congr_left
    intro i hi
    simp only [List.mem_range] at hi
    rw [filter_ne_range _ i hi, List.map_map]
    apply List.map_congr_left
    intro j hj
    simp only [List.mem_range] at hj
    have hd : ((t + 2 - 1) * i + j) / (t + 2 - 1) = i := by
      rw [Nat.mul_add_div hpos, Nat.div_eq_of_lt hj, Nat.add_zero]
    have hm : ((t + 2 - 1) * i + j) % (t + 2 - 1) = j := by
      rw [Nat.mul_add_mod, Nat.mod_eq_of_lt hj]
    simp only [Function.comp, hd, hm]

lemma triLoop_decode (s : ℕ) :
    (List.range (s * (s + 1) / 2)).map
        (fun r => (floorTri r - 1, r - floorTri r * (floorTri r - 1) / 2)) =
      triLoopList s := by
  rw [range_tri_map]
  unfold triLoopList
  apply flatMap_congr_left
  intro i _
  apply List.map_congr_left
  intro j hj
  simp only [List.mem_range] at hj
  have hmm : (i + 1) * (i + 1 - 1) = i * (i + 1) := by
    simp [Nat.succ_sub_one, Nat.mul_comm]
  have hm : floorTri (i * (i + 1) / 2 + j) = i + 1 := by
    apply floorTri_eq
    · rw [hmm]
      omega
    · rw [show (i + 1) * (i + 1 + 1) / 2 = i * (i + 1) / 2 + (i + 1) from tri_succ i]
      omega
  rw [hm, hmm]
  simp

lemma tri_decode (s : ℕ) (hs : 1 ≤ s) :
    (List.range (s * (s - 1) / 2)).map
        (fun r => (floorTri r, r - floorTri r * (floorTri r - 1) / 2)) =
      triList s := by
  obtain ⟨t, rfl⟩ : ∃ t, s = t + 1 := ⟨s - 1, by omega⟩
  rw [show (t + 1) * (t + 1 - 1) = t * (t + 1) from by simp [Nat.succ_sub_one, Nat.mul_comm],
    range_tri_map]
  unfold triList
  rw [List.range_succ_eq_map, List.flatMap_cons, List.flatMap_map]
  simp only [List.range_zero, List.map_nil, List.nil_append]
  apply flatMap_congr_left
  intro i _
  apply List.map_congr_left
  intro j hj
  simp only [List.mem_range] at hj
  have hmm : (i + 1) * (i + 1 - 1) = i * (i + 1) := by
    simp [Nat.succ_sub_one, Nat.mul_comm]
  have hm : floorTri (i * (i + 1) / 2 + j) = i + 1 := by
    apply floorTri_eq
    · rw [hmm]
      omega
    · rw [show (i + 1) * (i + 1 + 1) / 2 = i * (i + 1) / 2 + (i + 1) from tri_succ i]
      omega
  rw [hm, hmm]
  simp

lemma ul_count (s : ℕ) : s * (s - 1) / 2 + s = s * (s + 1) / 2 := by
  obtain ⟨k, hk⟩ := even_mul_pred s
  have hq : s * (s + 1) = s * (s - 1) + 2 * s := by
    cases s with
    | zero => simp
    | succ j =>
      simp only [Nat.succ_sub_one]
      ring
  omega

/-- C4: `_get_num_pos_edges` returns exactly the closed-form counts:
`size_a * size_b` for differing clusters under every flag combination, and for
a single cluster of size `s`: `s(s-1)/2` (undirected, no self-loops),
`s(s-1)/2 + s` (undirected, self-loops), `s(s-1)` (directed, no self-loops)
and `s²` (directed, self-loops). -/
theorem c4_possible_edge_counts (sa sb s : ℕ) (loops dir : Bool) :
    get_num_pos_edges sa sb false loops dir = sa * sb ∧
    get_num_pos_edges s s true false false = s * (s - 1) / 2 ∧
    get_num_pos_edges s s true true false = s * (s - 1) / 2 + s ∧
    get_num_pos_edges s s true false true = s * (s - 1) ∧
    get_num_pos_edges s s true true true = s ^ 2 :=
  ⟨npe_diff sa sb loops dir, npe_uu s, npe_ul s, npe_du s, npe_dl s⟩

/-- C10: the final `raise Exception` branch of `_get_edge_from_sample_num` is
unreachable: for every flag combination and all inputs the function returns a
pair (never `none`). -/
theorem c10_raise_unreachable (edge_num c1_size c2_size : ℕ)
    (same loops dir : Bool) :
    (get_edge_from_sample_num edge_num c1_size c2_size same loops dir).isSome = true := by
  cases same <;> cases loops <;> cases dir <;> rfl

/-- C2 (code bug): with differing cluster sizes the second component is taken
modulo `c1_size` instead of `c2_size`.  At rank 2 with `size_a = 2`,
`size_b = 3` the code returns `(0, 0)`, while the claimed formula
`(rank / size_b, rank % size_b)` gives `(0, 2)`. -/
theorem c2_wrong_modulus :
    get_edge_from_sample_num 2 2 3 false false false = some (0, 0) ∧
    ((2 : ℕ) / 3, (2 : ℕ) % 3) = ((0 : ℕ), (2 : ℕ)) := by decide

/-- C3: for every cluster size `s ≥ 1` and each same-cluster flag combination,
mapping the ranks `0 .. possible_edge_count - 1` through
`_get_edge_from_sample_num` reproduces, in order and without repetition, the
canonical enumeration of the possible-edge space (as spelled out in the unit
test's virtual lists). -/
theorem c3_rank_decode_enumerates (s : ℕ) (hs : 1 ≤ s) :
    ((List.range (get_num_pos_edges s s true true true)).map
        (fun r => get_edge_from_sample_num r s s true true true) =
      (prodList s s).map some) ∧
    ((List.range (get_num_pos_edges s s true false true)).map
        (fun r => get_edge_from_sample_num r s s true false true) =
      (offDiagList s).map some) ∧
    ((List.range (get_num_pos_edges s s true true false)).map
        (fun r => get_edge_from_sample_num r s s true true false) =
      (triLoopList s).map some) ∧
    ((List.range (get_num_pos_edges s s true false false)).map
        (fun r => get_edge_from_sample_num r s s true false false) =
      (triList s).map some) := by
  refine ⟨?_, ?_, ?_, ?_⟩
  · have e1 : ∀ N : ℕ, (List.range N).map
        (fun r => get_edge_from_sample_num r s s true true true) =
        ((List.range N).map (fun r => ((r / s : ℕ), r % s))).map some := by
      intro N
      rw [List.map_map]
      rfl
    rw [npe_dl, pow_two, e1, prod_decode s s (by omega)]
  · have e2 : ∀ N : ℕ, (List.range N).map
        (fun r => get_edge_from_sample_num r s s true false true) =
        ((List.range N).map
          (fun r => ((r / (s - 1) : ℕ),
            if r / (s - 1) ≤ r % (s - 1) then r % (s - 1) + 1 else r % (s - 1)))).map
          some := by
      intro N
      rw [List.map_map]
      rfl
    rw [npe_du, e2, offDiag_decode s]
  · have e3 : ∀ N : ℕ, (List.range N).map
        (fun r => get_edge_from_sample_num r s s true true false) =
        ((List.range N).map
          (fun r => (floorTri r - 1, r - floorTri r * (floorTri r - 1) / 2))).map
          some := by
      intro N
      rw [List.map_map]
      rfl
    rw [show get_num_pos_edges s s true true false = s * (s + 1) / 2 from ul_count s,
      e3, triLoop_decode s]
  · have e4 : ∀ N : ℕ, (List.range N).map
        (fun r => get_edge_from_sample_num r s s true false false) =
        ((List.range N).map
          (fun r => (floorTri r, r - floorTri r * (floorTri r - 1) / 2))).map
          some := by
      intro N
      rw [List.map_map]
      rfl
    rw [npe_uu, e4, tri_decode s hs]

/-- Witness for C3 at the representative size `s = 5` used by the unit test. -/
theorem c3_rank_decode_enumerates_witness :
    1 ≤ 5 ∧
    (((List.range (get_num_pos_edges 5 5 true true true)).map
        (fun r => get_edge_from_sample_num r 5 5 true true true) =
      (prodList 5 5).map some) ∧
    ((List.range (get_num_pos_edges 5 5 true false true)).map
        (fun r => get_edge_from_sample_num r 5 5 true false true) =
      (offDiagList 5).map some) ∧
    ((List.range (get_num_pos_edges 5 5 true true false)).map
        (fun r => get_edge_from_sample_num r 5 5 true true false) =
      (triLoopList 5).map some) ∧
    ((List.range (get_num_pos_edges 5 5 true false false)).map
        (fun r => get_edge_from_sample_num r 5 5 true false false) =
      (triList 5).map some)) :=
  ⟨by norm_num, c3_rank_decode_enumerates 5 (by norm_num)⟩

/-! ### The sampling layer

`random.choice` draws are modelled by a stream `σ : ℕ → ℕ` with a position
counter `c`: the draw at position `c` from `range n` yields `σ c % n`, which
ranges over exactly the values a real source can produce.  `np.random.binomial`
results are modelled by a second stream `β` (numpy's generator is a separate
source from the `random` module): for `0 < p < 1` any count in `[0, trials]`
can occur (`min (β c) trials`), while `p = 0` and `p = 1` are deterministic
and `p ∉ [0,1]` raises `ValueError`.  The unbounded rejection loops carry a
fuel bound; exhausting it gives `timeout` (the run would still be looping). -/


inductive SbmErr where
  | invalidProb
  | indexErr
deriving DecidableEq

inductive Res (α : Type) where
  | ok : α → Res α
  | err : SbmErr → Res α
  | timeout : Res α
deriving DecidableEq

/-- Sequencing of fallible steps: an exception (or a timeout) aborts the rest
of the run, exactly as in the Python control flow. -/
def Res.bind {α β : Type} : Res α → (α → Res β) → Res β
  | .ok a, f => f a
  | .err e, _ => .err e
  | .timeout, _ => .timeout

lemma Res.bind_ok {α β : Type} (a : α) (f : α → Res β) :
    (Res.ok a).bind f = f a := rfl

lemma Res.bind_err {α β : Type} (e : SbmErr) (f : α → Res β) :
    (Res.err e).bind f = .err e := rfl

lemma Res.bind_timeout {α β : Type} (f : α → Res β) :
    (Res.timeout : Res α).bind f = .timeout := rfl

/-- One call of `random.choice(range(n))` at stream position `c` (an empty
range raises `IndexError`; otherwise the draw is `σ c % n`, which ranges over
exactly the values a real source can produce). -/
def rchoice (σ : ℕ → ℕ) (c n : ℕ) : Res ℕ :=
  if n = 0 then .err .indexErr else .ok (σ c % n)

/-- One call of `np.random.binomial(trials, p)` reading stream position `c`. -/
def npBinomial (β : ℕ → ℕ) (c trials : ℕ) (p : ℚ) : Res ℕ :=
  if p < 0 ∨ 1 < p then .err .invalidProb
  else if p = 0 then .ok 0
  else if p = 1 then .ok trials
  else .ok (min (β c) trials)

/-- Embedding of `_get_number_of_edges`. -/
def get_number_of_edges (β : ℕ → ℕ) (c : ℕ) (c1_size c2_size : ℕ) (p : ℚ)
    (same_cluster self_loops directed : Bool) : Res ℕ :=
  npBinomial β c (get_num_pos_edges c1_size c2_size same_cluster self_loops directed) p

/-- The inner `while v_cidx == u_cidx` redraw loop of `_generate_sbm_edges`.
Returns the final `v` and the next stream position. -/
def redrawV (σ : ℕ → ℕ) (n u : ℕ) : ℕ → ℕ → ℕ → Res (ℕ × ℕ)
  | fuel, v, c =>
    if v ≠ u then .ok (v, c)
    else
      match fuel with
      | 0 => .timeout
      | fuel + 1 => (rchoice σ c n).bind fun v' => redrawV σ n u fuel v' (c + 1)

/-- The outer `while True` loop of `_generate_sbm_edges`: draw `u` and `v`,
redraw `v` while it collides with `u` (same cluster, no self-loops), and
repeat the whole draw until the pair is not in `edges_added`. -/
def freshLoop (σ : ℕ → ℕ) (s1 s2 : ℕ) (same loops : Bool) :
    ℕ → List (ℕ × ℕ) → ℕ → Res ((ℕ × ℕ) × ℕ)
  | 0, _, _ => .timeout
  | fuel + 1, added, c =>
    (rchoice σ c s1).bind fun u =>
    (rchoice σ (c + 1) s2).bind fun v0 =>
    (if same && !loops then redrawV σ s2 u fuel v0 (c + 2)
     else .ok (v0, c + 2)).bind fun vc =>
    if (u, vc.1) ∈ added then freshLoop σ s1 s2 same loops fuel added vc.2
    else .ok ((u, vc.1), vc.2)

/-- The `for i in range(num_edges)` loop of `_generate_sbm_edges`: draws `m`
distinct local pairs, threading the `edges_added` set and the stream position,
and returns the pairs in emission order. -/
def sampleEdges (σ : ℕ → ℕ) (s1 s2 : ℕ) (same loops : Bool) (fuel : ℕ) :
    ℕ → List (ℕ × ℕ) → ℕ → Res (List (ℕ × ℕ) × ℕ)
  | 0, _, c => .ok ([], c)
  | m + 1, added, c =>
    (freshLoop σ s1 s2 same loops fuel added c).bind fun pc =>
    (sampleEdges σ s1 s2 same loops fuel m (pc.1 :: added) pc.2).bind fun esc =>
    .ok (pc.1 :: esc.1, esc.2)

/-- `prob_mat_q[cluster_1][cluster_2]` (Python raises `IndexError` when out of
range). -/
def qEntry (Q : List (List ℚ)) (i j : ℕ) : Res ℚ :=
  match Q[i]? with
  | none => .err .indexErr
  | some row =>
    match row[j]? with
    | none => .err .indexErr
    | some p => .ok p

/-- Index of the first vertex of cluster `i`.  In the source this is the
running accumulator `c1_base_index` / `c2_base_index`; in both the directed
and the undirected iteration it equals the sum of the sizes of the preceding
clusters. -/
def clusterBase (sizes : List ℕ) (i : ℕ) : ℕ := ((sizes.take i).sum)

/-- The body of the inner `for cluster_2 in second_clusters` loop: sample the
edge count, then that many distinct local pairs, and translate them to global
indices.  Returns the edges plus the next positions of the two streams. -/
def genPair (sizes : List ℕ) (Q : List (List ℚ)) (loops dir : Bool)
    (σ β : ℕ → ℕ) (fuel i j σc βc : ℕ) : Res (List (ℕ × ℕ) × ℕ × ℕ) :=
  (qEntry Q i j).bind fun p =>
  (get_number_of_edges β βc (sizes.getD i 0) (sizes.getD j 0) p (i == j) loops dir).bind
    fun m =>
  (sampleEdges σ (sizes.getD i 0) (sizes.getD j 0) (i == j) loops fuel m [] σc).bind
    fun lc =>
  .ok (lc.1.map (fun uv => (clusterBase sizes i + uv.1, clusterBase sizes j + uv.2)),
    lc.2, βc + 1)

/-- The cluster pairs visited, in visit order: all ordered pairs when
directed, pairs `(i, j)` with `i ≤ j` otherwise. -/
def pairsToVisit (k : ℕ) (dir : Bool) : List (ℕ × ℕ) :=
  (List.range k).flatMap (fun i =>
    if dir then (List.range k).map (fun j => (i, j))
    else ((List.range k).drop i).map (fun j => (i, j)))

def genEdgesAux (sizes : List ℕ) (Q : List (List ℚ)) (loops dir : Bool)
    (σ β : ℕ → ℕ) (fuel : ℕ) : List (ℕ × ℕ) → ℕ → ℕ → Res (List (ℕ × ℕ))
  | [], _, _ => .ok []
  | ij :: rest, σc, βc =>
    (genPair sizes Q loops dir σ β fuel ij.1 ij.2 σc βc).bind fun r =>
    (genEdgesAux sizes Q loops dir σ β fuel rest r.2.1 r.2.2).bind fun es' =>
    .ok (r.1 ++ es')

/-- Embedding of `_generate_sbm_edges` (the list of all yielded edges). -/
def generate_sbm_edges (sizes : List ℕ) (Q : List (List ℚ)) (dir loops : Bool)
    (σ β : ℕ → ℕ) (fuel : ℕ) : Res (List (ℕ × ℕ)) :=
  genEdgesAux sizes Q loops dir σ β fuel (pairsToVisit sizes.length dir) 0 0

/-- The sparse adjacency matrix: its dimension and the list of cells that were
assigned `1` (assignment is idempotent, so a list of written cells is a
faithful model of the `lil_matrix`). -/
structure AdjMat where
  n : ℕ
  cells : List (ℕ × ℕ)
deriving DecidableEq

/-- Entry `(u, v)` of the built matrix. -/
def AdjMat.entry (M : AdjMat) (u v : ℕ) : ℕ := if (u, v) ∈ M.cells then 1 else 0

/-- Embedding of `sbm_adjmat`: writes `adj_mat[u, v] = 1` for every generated
edge, and also `adj_mat[v, u] = 1` when undirected. -/
def sbm_adjmat (sizes : List ℕ) (Q : List (List ℚ)) (dir loops : Bool)
    (σ β : ℕ → ℕ) (fuel : ℕ) : Res AdjMat :=
  (generate_sbm_edges sizes Q dir loops σ β fuel).bind fun es =>
  .ok ⟨sizes.sum, if dir then es else es.flatMap (fun uv => [uv, (uv.2, uv.1)])⟩

/-- The probability matrix built by `ssbm_adjmat`: each row is `[q] * k` with
entry `row_num` overwritten by `p`. -/
def ssbmQ (k : ℕ) (p q : ℚ) : List (List ℚ) :=
  (List.range k).map (fun i => (List.replicate k q).set i p)

/-- Embedding of `ssbm_adjmat`. -/
def ssbm_adjmat (n k : ℕ) (p q : ℚ) (dir : Bool) (σ β : ℕ → ℕ) (fuel : ℕ) :
    Res AdjMat :=
  sbm_adjmat (List.replicate k (n / k)) (ssbmQ k p q) dir false σ β fuel

example : sbm_adjmat [2] [[1]] false false (fun c => c % 2) (fun _ => 0) 1 =
    .ok ⟨2, [(0, 1), (1, 0)]⟩ := by decide

example : sbm_adjmat [1, 1] [[1, 1], [9, 1]] false false (fun _ => 0) (fun _ => 0) 1 =
    .ok ⟨2, [(0, 1), (1, 0)]⟩ := by decide

example : sampleEdges (fun i => [0, 1, 1, 0].getD i 0) 3 3 true false 1 2 [] 0 =
    .ok ([(0, 1), (1, 0)], 4) := by decide

/-- C5 (code bug): the `edges_added` set is keyed by the *ordered* local pair,
with no canonicalisation.  For a same-cluster undirected pair of size 3 with
realized count 2, the draws `(0,1)` then `(1,0)` are both accepted and emitted
even though they represent the same unordered edge. -/
theorem c5_no_canonicalisation :
    sampleEdges (fun i => [0, 1, 1, 0].getD i 0) 3 3 true false 1 2 [] 0 =
      .ok ([(0, 1), (1, 0)], 4) := by decide

lemma mem_pairup {es : List (ℕ × ℕ)} {u v : ℕ}
    (h : (u, v) ∈ es.flatMap (fun uv => [uv, (uv.2, uv.1)])) :
    (v, u) ∈ es.flatMap (fun uv => [uv, (uv.2, uv.1)]) := by
  simp only [List.mem_flatMap, List.mem_cons, List.mem_singleton,
    List.not_mem_nil, or_false] at h ⊢
  obtain ⟨⟨a, b⟩, hab, h⟩ := h
  refine ⟨(a, b), hab, ?_⟩
  simp only [Prod.mk.injEq] at h ⊢
  tauto

/-- C7: in undirected mode every edge write is mirrored, so any successfully
returned adjacency matrix is exactly symmetric. -/
theorem c7_undirected_symmetric (sizes : List ℕ) (Q : List (List ℚ))
    (loops : Bool) (σ β : ℕ → ℕ) (fuel : ℕ) (M : AdjMat)
    (hM : sbm_adjmat sizes Q false loops σ β fuel = .ok M) (u v : ℕ) :
    M.entry u v = M.entry v u := by
  unfold sbm_adjmat at hM
  cases hgen : generate_sbm_edges sizes Q false loops σ β fuel with
  | ok es =>
    rw [hgen, Res.bind_ok] at hM
    simp only [Bool.false_eq_true, if_false] at hM
    cases hM
    unfold AdjMat.entry
    exact if_congr ⟨mem_pairup, mem_pairup⟩ rfl rfl
  | err e =>
    rw [hgen, Res.bind_err] at hM
    cases hM
  | timeout =>
    rw [hgen, Res.bind_timeout] at hM
    cases hM

/-- Witness for C7: a concrete undirected run whose matrix is symmetric. -/
theorem c7_undirected_symmetric_witness :
    sbm_adjmat [2] [[1]] false false (fun c => c % 2) (fun _ => 0) 1 =
      .ok ⟨2, [(0, 1), (1, 0)]⟩ ∧
    AdjMat.entry ⟨2, [(0, 1), (1, 0)]⟩ 0 1 = AdjMat.entry ⟨2, [(0, 1), (1, 0)]⟩ 1 0 :=
  ⟨by decide,
    c7_undirected_symmetric [2] [[1]] false (fun c => c % 2) (fun _ => 0) 1
      ⟨2, [(0, 1), (1, 0)]⟩ (by decide) 0 1⟩

/-- C6 counterexample: the probability entry `9 ∉ [0,1]` sits at `Q[1][0]`,
which the undirected iteration never consults, so `sbm_adjmat` returns a
complete adjacency matrix instead of failing: there is no eager validation. -/
theorem c6_no_eager_validation_cex :
    ((1 : ℚ) < 9) ∧
    sbm_adjmat [1, 1] [[1, 1], [9, 1]] false false (fun _ => 0) (fun _ => 0) 1 =
      .ok ⟨2, [(0, 1), (1, 0)]⟩ := by decide

lemma npBinomial_invalid {β : ℕ → ℕ} {c trials : ℕ} {p : ℚ}
    (hp : p < 0 ∨ 1 < p) : npBinomial β c trials p = .err .invalidProb := by
  unfold npBinomial
  rw [if_pos hp]

lemma gne_invalid {β : ℕ → ℕ} {c s1 s2 : ℕ} {p : ℚ} {same loops dir : Bool}
    (hp : p < 0 ∨ 1 < p) :
    get_number_of_edges β c s1 s2 p same loops dir = .err .invalidProb := by
  unfold get_number_of_edges
  exact npBinomial_invalid hp

/-- C6 amended: `sbm_adjmat` performs no validation before sampling.  An
out-of-range probability causes a failure only when the entry is consulted for
a binomial draw (here `Q[0][0]`, the first pair visited); an invalid entry in
a position the undirected iteration never reads (here `Q[1][0]`) changes
nothing, and the same complete graph is returned without any error. -/
theorem c6_lazy_validation (x : ℚ) :
    ((x < 0 ∨ 1 < x) →
      sbm_adjmat [1, 1] [[x, 1], [1, 1]] false false (fun _ => 0) (fun _ => 0) 1 =
        .err .invalidProb) ∧
    sbm_adjmat [1, 1] [[1, 1], [x, 1]] false false (fun _ => 0) (fun _ => 0) 1 =
      .ok ⟨2, [(0, 1), (1, 0)]⟩ := by
  constructor
  · intro h
    have hp : genPair [1, 1] [[x, 1], [1, 1]] false false (fun _ => 0) (fun _ => 0)
        1 0 0 0 0 = .err .invalidProb := by
      unfold genPair
      rw [show qEntry [[x, 1], [1, 1]] 0 0 = .ok x from rfl, Res.bind_ok,
        gne_invalid h, Res.bind_err]
    have hgen : generate_sbm_edges [1, 1] [[x, 1], [1, 1]] false false
        (fun _ => 0) (fun _ => 0) 1 = .err .invalidProb := by
      show genEdgesAux [1, 1] [[x, 1], [1, 1]] false false (fun _ => 0) (fun _ => 0) 1
        ((0, 0) :: [(0, 1), (1, 1)]) 0 0 = .err .invalidProb
      rw [genEdgesAux, hp, Res.bind_err]
    unfold sbm_adjmat
    rw [hgen, Res.bind_err]
  · rfl

/-- Witness for C6's amended statement at `x = 9`. -/
theorem c6_lazy_validation_witness :
    ((9 : ℚ) < 0 ∨ 1 < (9 : ℚ)) ∧
    sbm_adjmat [1, 1] [[9, 1], [1, 1]] false false (fun _ => 0) (fun _ => 0) 1 =
      .err .invalidProb ∧
    sbm_adjmat [1, 1] [[1, 1], [9, 1]] false false (fun _ => 0) (fun _ => 0) 1 =
      .ok ⟨2, [(0, 1), (1, 0)]⟩ :=
  ⟨Or.inr (by norm_num), (c6_lazy_validation 9).1 (Or.inr (by norm_num)),
    (c6_lazy_validation 9).2⟩

lemma ssbmQ_entry (k i j : ℕ) (p q : ℚ) (hi : i < k) (hj : j < k) :
    qEntry (ssbmQ k p q) i j = .ok (if i = j then p else q) := by
  have hrow : (ssbmQ k p q)[i]? = some ((List.replicate k q).set i p) := by
    unfold ssbmQ
    rw [List.getElem?_map, List.getElem?_range hi]
    rfl
  have hval : ((List.replicate k q).set i p)[j]? = some (if i = j then p else q) := by
    rw [List.getElem?_set]
    by_cases hij : i = j
    · subst hij
      simp [List.length_replicate, hi]
    · simp [hij, List.getElem?_replicate, hj]
  simp only [qEntry, hrow, hval]

/-- C9: `ssbm_adjmat n k p q` builds `k` clusters of size `⌊n/k⌋`, a `k × k`
probability matrix with `p` on the diagonal and `q` elsewhere, and the
returned adjacency matrix has dimension `k * ⌊n/k⌋` — so when `k ∤ n` the
remaining `n - k⌊n/k⌋` vertices are silently absent from the graph. -/
theorem c9_ssbm_shape (n k : ℕ) (p q : ℚ) (dir : Bool) (σ β : ℕ → ℕ) (fuel : ℕ)
    (i j : ℕ) (M : AdjMat) (hn : 0 < n) (hk : 0 < k) (hkn : k ≤ n)
    (hi : i < k) (hj : j < k)
    (hM : ssbm_adjmat n k p q dir σ β fuel = .ok M) :
    qEntry (ssbmQ k p q) i j = .ok (if i = j then p else q) ∧
    M.n = k * (n / k) := by
  refine ⟨ssbmQ_entry k i j p q hi hj, ?_⟩
  unfold ssbm_adjmat sbm_adjmat at hM
  cases hgen : generate_sbm_edges (List.replicate k (n / k)) (ssbmQ k p q)
      dir false σ β fuel with
  | ok es =>
    rw [hgen, Res.bind_ok] at hM
    cases hM
    show (List.replicate k (n / k)).sum = k * (n / k)
    rw [List.sum_replicate, smul_eq_mul]
  | err e =>
    rw [hgen, Res.bind_err] at hM
    cases hM
  | timeout =>
    rw [hgen, Res.bind_timeout] at hM
    cases hM

/-- Witness for C9 at `n = 2`, `k = 2`, `p = q = 0`. -/
theorem c9_ssbm_shape_witness :
    ((0 : ℕ) < 2 ∧ (0 : ℕ) < 2 ∧ (2 : ℕ) ≤ 2 ∧ (0 : ℕ) < 2 ∧ (1 : ℕ) < 2) ∧
    ssbm_adjmat 2 2 0 0 false (fun _ => 0) (fun _ => 0) 1 = .ok ⟨2, []⟩ ∧
    (qEntry (ssbmQ 2 0 0) 0 1 = .ok (if 0 = 1 then (0 : ℚ) else 0) ∧
      AdjMat.n ⟨2, []⟩ = 2 * (2 / 2)) :=
  ⟨⟨by norm_num, by norm_num, by norm_num, by norm_num, by norm_num⟩, by decide,
    c9_ssbm_shape 2 2 0 0 false (fun _ => 0) (fun _ => 0) 1 0 1 ⟨2, []⟩
      (by norm_num) (by norm_num) (by norm_num) (by norm_num) (by norm_num)
      (by decide)⟩

/-! ### C1: the end-to-end claim fails on an adversarial draw sequence

`offDecode` enumerates, in row-major order, the 380 ordered off-diagonal
pairs of a 20-vertex cluster.  Its first 190 values are 190 *distinct ordered*
pairs `(u, v)` with `u ≤ 9`, `v ≠ u`; their unordered closure misses every
edge inside `{10, ..., 19}` — in particular `{18, 19}`.  A draw stream that
spells out these pairs makes the rejection sampler accept all of them (each is
fresh as an *ordered* pair), so with `p = 1` the within-cluster pass emits its
190 edges while covering only 145 of the 190 unordered edges. -/

def offDecode (t : ℕ) : ℕ × ℕ :=
  let u := t / 19
  let v0 := t % 19
  (u, if u ≤ v0 then v0 + 1 else v0)

/-- A behaviour of `random.choice` whose successive draws spell out
`offDecode 0, offDecode 1, ...`, cycling every 190 pairs (= 380 draws, exactly
one within-cluster sampling pass). -/
def badSigma (c : ℕ) : ℕ :=
  let pr := offDecode ((c / 2) % 190)
  if c % 2 = 0 then pr.1 else pr.2

lemma offDecode_fst_lt (t : ℕ) (ht : t < 380) : (offDecode t).1 < 20 := by
  show t / 19 < 20
  omega

lemma offDecode_fst_le9 (t : ℕ) (ht : t < 190) : (offDecode t).1 ≤ 9 := by
  show t / 19 ≤ 9
  omega

lemma offDecode_snd_lt (t : ℕ) : (offDecode t).2 < 20 := by
  show (if t / 19 ≤ t % 19 then t % 19 + 1 else t % 19) < 20
  have h : t % 19 < 19 := Nat.mod_lt _ (by norm_num)
  split <;> omega

lemma offDecode_ne (t : ℕ) : (offDecode t).2 ≠ (offDecode t).1 := by
  show (if t / 19 ≤ t % 19 then t % 19 + 1 else t % 19) ≠ t / 19
  split <;> omega

lemma offDecode_inj {t1 t2 : ℕ} (h1 : t1 < 380) (h2 : t2 < 380)
    (h : offDecode t1 = offDecode t2) : t1 = t2 := by
  unfold offDecode at h
  simp only [Prod.mk.injEq] at h
  obtain ⟨hu, hv⟩ := h
  have m1 : t1 % 19 < 19 := Nat.mod_lt _ (by norm_num)
  have m2 : t2 % 19 < 19 := Nat.mod_lt _ (by norm_num)
  have d1 := Nat.div_add_mod t1 19
  have d2 := Nat.div_add_mod t2 19
  split_ifs at hv <;> omega

lemma badSigma_even (i t : ℕ) (ht : t < 190) :
    badSigma (380 * i + 2 * t) = (offDecode t).1 := by
  have h2 : (380 * i + 2 * t) % 2 = 0 := by omega
  have hd : (380 * i + 2 * t) / 2 = 190 * i + t := by omega
  have hm : (190 * i + t) % 190 = t := by omega
  simp only [badSigma, h2, hd, hm, if_pos]

lemma badSigma_odd (i t : ℕ) (ht : t < 190) :
    badSigma (380 * i + 2 * t + 1) = (offDecode t).2 := by
  have h2 : ¬((380 * i + 2 * t + 1) % 2 = 0) := by omega
  have hd : (380 * i + 2 * t + 1) / 2 = 190 * i + t := by omega
  have hm : (190 * i + t) % 190 = t := by omega
  simp only [badSigma, h2, hd, hm, if_neg, if_false]

/-- A single pass of the `while True` loop when the first draw is an
off-diagonal pair not yet in `edges_added`: it is accepted immediately,
consuming exactly two draws. -/
lemma freshLoop_first {σ : ℕ → ℕ} {s1 s2 fuel : ℕ} {added : List (ℕ × ℕ)}
    {c : ℕ} (hs1 : s1 ≠ 0) (hs2 : s2 ≠ 0)
    (hne : σ (c + 1) % s2 ≠ σ c % s1)
    (hmem : (σ c % s1, σ (c + 1) % s2) ∉ added) :
    freshLoop σ s1 s2 true false (fuel + 1) added c =
      .ok ((σ c % s1, σ (c + 1) % s2), c + 2) := by
  rw [freshLoop]
  rw [show rchoice σ c s1 = .ok (σ c % s1) from by unfold rchoice; rw [if_neg hs1]]
  rw [Res.bind_ok]
  rw [show rchoice σ (c + 1) s2 = .ok (σ (c + 1) % s2) from by
    unfold rchoice; rw [if_neg hs2]]
  rw [Res.bind_ok]
  simp only [Bool.not_false, Bool.and_self, if_true]
  rw [redrawV.eq_def]
  dsimp only
  rw [if_pos hne, Res.bind_ok]
  exact if_neg hmem

/-- One within-cluster sampling pass against `badSigma`: starting at draw
position `380 i + 2 t` with `edges_added` holding the decoded pairs
`offDecode 0 .. offDecode (t-1)`, sampling `m` more edges (with
`t + m ≤ 190`) accepts each subsequent decoded pair first try. -/
lemma c1_pass (i : ℕ) : ∀ m t added, t + m ≤ 190 →
    added = ((List.range t).map offDecode).reverse →
    sampleEdges badSigma 20 20 true false 1 m added (380 * i + 2 * t) =
      .ok ((List.range' t m).map offDecode, 380 * i + 2 * (t + m)) := by
  intro m
  induction m with
  | zero =>
    intro t added hle hadd
    rw [sampleEdges]
    rfl
  | succ m ih =>
    intro t added hle hadd
    have ht : t < 190 := by omega
    have hu20 : badSigma (380 * i + 2 * t) % 20 = (offDecode t).1 := by
      rw [badSigma_even i t ht]
      exact Nat.mod_eq_of_lt (offDecode_fst_lt t (by omega))
    have hv20 : badSigma (380 * i + 2 * t + 1) % 20 = (offDecode t).2 := by
      rw [badSigma_odd i t ht]
      exact Nat.mod_eq_of_lt (offDecode_snd_lt t)
    have hne : badSigma (380 * i + 2 * t + 1) % 20 ≠ badSigma (380 * i + 2 * t) % 20 := by
      rw [hu20, hv20]
      exact offDecode_ne t
    have hmem : (badSigma (380 * i + 2 * t) % 20,
        badSigma (380 * i + 2 * t + 1) % 20) ∉ added := by
      rw [hu20, hv20, Prod.mk.eta, hadd]
      intro hmem'
      rw [List.mem_reverse, List.mem_map] at hmem'
      obtain ⟨t', ht', heq⟩ := hmem'
      rw [List.mem_range] at ht'
      have := offDecode_inj (by omega) (by omega) heq
      omega
    rw [sampleEdges]
    rw [freshLoop_first (by norm_num) (by norm_num) hne hmem, Res.bind_ok]
    rw [hu20, hv20, Prod.mk.eta]
    have hrec := ih (t + 1) (offDecode t :: added) (by omega) (by
      simp [hadd, List.range_succ])
    rw [show 380 * i + 2 * t + 2 = 380 * i + 2 * (t + 1) from by ring, hrec, Res.bind_ok]
    rw [List.range'_succ, List.map_cons]
    rw [show t + 1 + m = t + (m + 1) from by ring]

lemma getD_replicate {k i a : ℕ} (hi : i < k) : (List.replicate k a).getD i 0 = a := by
  rw [List.getD_eq_getElem?_getD, List.getElem?_replicate, if_pos hi]
  rfl

lemma clusterBase_replicate (k s i : ℕ) (hik : i ≤ k) :
    clusterBase (List.replicate k s) i = s * i := by
  unfold clusterBase
  rw [List.take_replicate, List.sum_replicate, smul_eq_mul]
  rw [min_eq_left hik]
  ring

/-- A within-cluster `genPair` of the `n = 100, k = 5, p = 1, q = 0` run
against `badSigma`: emits exactly the 190 decoded pairs, offset by the
cluster's base index `20 i`. -/
lemma c1_genPair_diag (i βc σc : ℕ) (hi : i < 5) (hσ : σc = 380 * i) :
    genPair (List.replicate 5 20) (ssbmQ 5 1 0) false false badSigma (fun _ => 0) 1
        i i σc βc =
      .ok (((List.range' 0 190).map offDecode).map
            (fun uv => (20 * i + uv.1, 20 * i + uv.2)), 380 * (i + 1), βc + 1) := by
  subst hσ
  unfold genPair
  rw [ssbmQ_entry 5 i i 1 0 hi hi,
    show (if i = i then (1 : ℚ) else 0) = 1 from if_pos rfl, Res.bind_ok]
  rw [getD_replicate hi]
  rw [show (i == i) = true from beq_self_eq_true i]
  have hne190 : get_number_of_edges (fun _ => 0) βc 20 20 1 true false false =
      .ok 190 := by
    unfold get_number_of_edges npBinomial
    norm_num
    rfl
  rw [hne190, Res.bind_ok]
  have hpass := c1_pass i 190 0 [] (by norm_num) (by simp)
  norm_num at hpass
  rw [hpass, Res.bind_ok]
  rw [clusterBase_replicate 5 20 i (by omega)]
  rw [show 380 * i + 380 = 380 * (i + 1) from by ring]

/-- A cross-cluster `genPair` of the same run: probability `q = 0`, so the
binomial draw is 0 and no edges (and no `random.choice` draws) are produced. -/
lemma c1_genPair_off (i j σc βc : ℕ) (hi : i < 5) (hj : j < 5) (hij : i ≠ j) :
    genPair (List.replicate 5 20) (ssbmQ 5 1 0) false false badSigma (fun _ => 0) 1
        i j σc βc = .ok ([], σc, βc + 1) := by
  unfold genPair
  rw [ssbmQ_entry 5 i j 1 0 hi hj,
    show (if i = j then (1 : ℚ) else 0) = 0 from if_neg hij, Res.bind_ok]
  have h0 : get_number_of_edges (fun _ => 0) βc ((List.replicate 5 20).getD i 0)
      ((List.replicate 5 20).getD j 0) 0 (i == j) false false = .ok 0 := by
    unfold get_number_of_edges npBinomial
    norm_num
  rw [h0, Res.bind_ok]
  rw [sampleEdges, Res.bind_ok]
  rfl

/-- The edges emitted for cluster `i` in the adversarial run. -/
def c1ClusterEdges (i : ℕ) : List (ℕ × ℕ) :=
  ((List.range' 0 190).map offDecode).map (fun uv => (20 * i + uv.1, 20 * i + uv.2))

/-- All edges of the adversarial `ssbm_adjmat 100 5 1 0` run: the five
within-cluster passes (the ten cross-cluster pairs have `q = 0` and emit
nothing). -/
def c1Edges : List (ℕ × ℕ) :=
  c1ClusterEdges 0 ++ (c1ClusterEdges 1 ++ (c1ClusterEdges 2 ++
    (c1ClusterEdges 3 ++ c1ClusterEdges 4)))

lemma c1_run :
    generate_sbm_edges (List.replicate 5 20) (ssbmQ 5 1 0) false false badSigma
      (fun _ => 0) 1 = .ok c1Edges := by
  have d0 : genPair (List.replicate 5 20) (ssbmQ 5 1 0) false false badSigma
      (fun _ => 0) 1 0 0 0 0 = .ok (c1ClusterEdges 0, 380, 1) :=
    c1_genPair_diag 0 0 0 (by norm_num) (by norm_num)
  have f01 : genPair (List.replicate 5 20) (ssbmQ 5 1 0) false false badSigma
      (fun _ => 0) 1 0 1 380 1 = .ok ([], 380, 2) :=
    c1_genPair_off 0 1 380 1 (by norm_num) (by norm_num) (by norm_num)
  have f02 : genPair (List.replicate 5 20) (ssbmQ 5 1 0) false false badSigma
      (fun _ => 0) 1 0 2 380 2 = .ok ([], 380, 3) :=
    c1_genPair_off 0 2 380 2 (by norm_num) (by norm_num) (by norm_num)
  have f03 : genPair (List.replicate 5 20) (ssbmQ 5 1 0) false false badSigma
      (fun _ => 0) 1 0 3 380 3 = .ok ([], 380, 4) :=
    c1_genPair_off 0 3 380 3 (by norm_num) (by norm_num) (by norm_num)
  have f04 : genPair (List.replicate 5 20) (ssbmQ 5 1 0) false false badSigma
      (fun _ => 0) 1 0 4 380 4 = .ok ([], 380, 5) :=
    c1_genPair_off 0 4 380 4 (by norm_num) (by norm_num) (by norm_num)
  have d1 : genPair (List.replicate 5 20) (ssbmQ 5 1 0) false false badSigma
      (fun _ => 0) 1 1 1 380 5 = .ok (c1ClusterEdges 1, 760, 6) :=
    c1_genPair_diag 1 5 380 (by norm_num) (by norm_num)
  have f12 : genPair (List.replicate 5 20) (ssbmQ 5 1 0) false false badSigma
      (fun _ => 0) 1 1 2 760 6 = .ok ([], 760, 7) :=
    c1_genPair_off 1 2 760 6 (by norm_num) (by norm_num) (by norm_num)
  have f13 : genPair (List.replicate 5 20) (ssbmQ 5 1 0) false false badSigma
      (fun _ => 0) 1 1 3 760 7 = .ok ([], 760, 8) :=
    c1_genPair_off 1 3 760 7 (by norm_num) (by norm_num) (by norm_num)
  have f14 : genPair (List.replicate 5 20) (ssbmQ 5 1 0) false false badSigma
      (fun _ => 0) 1 1 4 760 8 = .ok ([], 760, 9) :=
    c1_genPair_off 1 4 760 8 (by norm_num) (by norm_num) (by norm_num)
  have d2 : genPair (List.replicate 5 20) (ssbmQ 5 1 0) false false badSigma
      (fun _ => 0) 1 2 2 760 9 = .ok (c1ClusterEdges 2, 1140, 10) :=
    c1_genPair_diag 2 9 760 (by norm_num) (by norm_num)
  have f23 : genPair (List.replicate 5 20) (ssbmQ 5 1 0) false false badSigma
      (fun _ => 0) 1 2 3 1140 10 = .ok ([], 1140, 11) :=
    c1_genPair_off 2 3 1140 10 (by norm_num) (by norm_num) (by norm_num)
  have f24 : genPair (List.replicate 5 20) (ssbmQ 5 1 0) false false badSigma
      (fun _ => 0) 1 2 4 1140 11 = .ok ([], 1140, 12) :=
    c1_genPair_off 2 4 1140 11 (by norm_num) (by norm_num) (by norm_num)
  have d3 : genPair (List.replicate 5 20) (ssbmQ 5 1 0) false false badSigma
      (fun _ => 0) 1 3 3 1140 12 = .ok (c1ClusterEdges 3, 1520, 13) :=
    c1_genPair_diag 3 12 1140 (by norm_num) (by norm_num)
  have f34 : genPair (List.replicate 5 20) (ssbmQ 5 1 0) false false badSigma
      (fun _ => 0) 1 3 4 1520 13 = .ok ([], 1520, 14) :=
    c1_genPair_off 3 4 1520 13 (by norm_num) (by norm_num) (by norm_num)
  have d4 : genPair (List.replicate 5 20) (ssbmQ 5 1 0) false false badSigma
      (fun _ => 0) 1 4 4 1520 14 = .ok (c1ClusterEdges 4, 1900, 15) :=
    c1_genPair_diag 4 14 1520 (by norm_num) (by norm_num)
  have g15 : genEdgesAux (List.replicate 5 20) (ssbmQ 5 1 0) false false badSigma
      (fun _ => 0) 1 [] 1900 15 = .ok [] := rfl
  have g14 : genEdgesAux (List.replicate 5 20) (ssbmQ 5 1 0) false false badSigma
      (fun _ => 0) 1 [(4, 4)] 1520 14 = .ok (c1ClusterEdges 4 ++ []) := by
    rw [genEdgesAux, d4, Res.bind_ok]
    dsimp only
    rw [g15, Res.bind_ok]
    all_goals dsimp only [List.nil_append]
  have g13 : genEdgesAux (List.replicate 5 20) (ssbmQ 5 1 0) false false badSigma
      (fun _ => 0) 1 [(3, 4), (4, 4)] 1520 13 = .ok (c1ClusterEdges 4 ++ []) := by
    rw [genEdgesAux, f34, Res.bind_ok]
    dsimp only
    rw [g14, Res.bind_ok]
    all_goals dsimp only [List.nil_append]
  have g12 : genEdgesAux (List.replicate 5 20) (ssbmQ 5 1 0) false false badSigma
      (fun _ => 0) 1 [(3, 3), (3, 4), (4, 4)] 1140 12 = .ok (c1ClusterEdges 3 ++ (c1ClusterEdges 4 ++ [])) := by
    rw [genEdgesAux, d3, Res.bind_ok]
    dsimp only
    rw [g13, Res.bind_ok]
    all_goals dsimp only [List.nil_append]
  have g11 : genEdgesAux (List.replicate 5 20) (ssbmQ 5 1 0) false false badSigma
      (fun _ => 0) 1 [(2, 4), (3, 3), (3, 4), (4, 4)] 1140 11 = .ok (c1ClusterEdges 3 ++ (c1ClusterEdges 4 ++ [])) := by
    rw [genEdgesAux, f24, Res.bind_ok]
    dsimp only
    rw [g12, Res.bind_ok]
    all_goals dsimp only [List.nil_append]
  have g10 : genEdgesAux (List.replicate 5 20) (ssbmQ 5 1 0) false false badSigma
      (fun _ => 0) 1 [(2, 3), (2, 4), (3, 3), (3, 4), (4, 4)] 1140 10 = .ok (c1ClusterEdges 3 ++ (c1ClusterEdges 4 ++ [])) := by
    rw [genEdgesAux, f23, Res.bind_ok]
    dsimp only
    rw [g11, Res.bind_ok]
    all_goals dsimp only [List.nil_append]
  have g9 : genEdgesAux (List.replicate 5 20) (ssbmQ 5 1 0) false false badSigma
      (fun _ => 0) 1 [(2, 2), (2, 3), (2, 4), (3, 3), (3, 4), (4, 4)] 760 9 = .ok (c1ClusterEdges 2 ++ (c1ClusterEdges 3 ++ (c1ClusterEdges 4 ++ []))) := by
    rw [genEdgesAux, d2, Res.bind_ok]
    dsimp only
    rw [g10, Res.bind_ok]
    all_goals dsimp only [List.nil_append]
  have g8 : genEdgesAux (List.replicate 5 20) (ssbmQ 5 1 0) false false badSigma
      (fun _ => 0) 1 [(1, 4), (2, 2), (2, 3), (2, 4), (3, 3), (3, 4), (4, 4)] 760 8 = .ok (c1ClusterEdges 2 ++ (c1ClusterEdges 3 ++ (c1ClusterEdges 4 ++ []))) := by
    rw [genEdgesAux, f14, Res.bind_ok]
    dsimp only
    rw [g9, Res.bind_ok]
    all_goals dsimp only [List.nil_append]
  have g7 : genEdgesAux (List.replicate 5 20) (ssbmQ 5 1 0) false false badSigma
      (fun _ => 0) 1 [(1, 3), (1, 4), (2, 2), (2, 3), (2, 4), (3, 3), (3, 4), (4, 4)] 760 7 = .ok (c1ClusterEdges 2 ++ (c1ClusterEdges 3 ++ (c1ClusterEdges 4 ++ []))) := by
    rw [genEdgesAux, f13, Res.bind_ok]
    dsimp only
    rw [g8, Res.bind_ok]
    all_goals dsimp only [List.nil_append]
  have g6 : genEdgesAux (List.replicate 5 20) (ssbmQ 5 1 0) false false badSigma
      (fun _ => 0) 1 [(1, 2), (1, 3), (1, 4), (2, 2), (2, 3), (2, 4), (3, 3), (3, 4), (4, 4)] 760 6 = .ok (c1ClusterEdges 2 ++ (c1ClusterEdges 3 ++ (c1ClusterEdges 4 ++ []))) := by
    rw [genEdgesAux, f12, Res.bind_ok]
    dsimp only
    rw [g7, Res.bind_ok]
    all_goals dsimp only [List.nil_append]
  have g5 : genEdgesAux (List.replicate 5 20) (ssbmQ 5 1 0) false false badSigma
      (fun _ => 0) 1 [(1, 1), (1, 2), (1, 3), (1, 4), (2, 2), (2, 3), (2, 4), (3, 3), (3, 4), (4, 4)] 380 5 = .ok (c1ClusterEdges 1 ++ (c1ClusterEdges 2 ++ (c1ClusterEdges 3 ++ (c1ClusterEdges 4 ++ [])))) := by
    rw [genEdgesAux, d1, Res.bind_ok]
    dsimp only
    rw [g6, Res.bind_ok]
    all_goals dsimp only [List.nil_append]
  have g4 : genEdgesAux (List.replicate 5 20) (ssbmQ 5 1 0) false false badSigma
      (fun _ => 0) 1 [(0, 4), (1, 1), (1, 2), (1, 3), (1, 4), (2, 2), (2, 3), (2, 4), (3, 3), (3, 4), (4, 4)] 380 4 = .ok (c1ClusterEdges 1 ++ (c1ClusterEdges 2 ++ (c1ClusterEdges 3 ++ (c1ClusterEdges 4 ++ [])))) := by
    rw [genEdgesAux, f04, Res.bind_ok]
    dsimp only
    rw [g5, Res.bind_ok]
    all_goals dsimp only [List.nil_append]
  have g3 : genEdgesAux (List.replicate 5 20) (ssbmQ 5 1 0) false false badSigma
      (fun _ => 0) 1 [(0, 3), (0, 4), (1, 1), (1, 2), (1, 3), (1, 4), (2, 2), (2, 3), (2, 4), (3, 3), (3, 4), (4, 4)] 380 3 = .ok (c1ClusterEdges 1 ++ (c1ClusterEdges 2 ++ (c1ClusterEdges 3 ++ (c1ClusterEdges 4 ++ [])))) := by
    rw [genEdgesAux, f03, Res.bind_ok]
    dsimp only
    rw [g4, Res.bind_ok]
    all_goals dsimp only [List.nil_append]
  have g2 : genEdgesAux (List.replicate 5 20) (ssbmQ 5 1 0) false false badSigma
      (fun _ => 0) 1 [(0, 2), (0, 3), (0, 4), (1, 1), (1, 2), (1, 3), (1, 4), (2, 2), (2, 3), (2, 4), (3, 3), (3, 4), (4, 4)] 380 2 = .ok (c1ClusterEdges 1 ++ (c1ClusterEdges 2 ++ (c1ClusterEdges 3 ++ (c1ClusterEdges 4 ++ [])))) := by
    rw [genEdgesAux, f02, Res.bind_ok]
    dsimp only
    rw [g3, Res.bind_ok]
    all_goals dsimp only [List.nil_append]
  have g1 : genEdgesAux (List.replicate 5 20) (ssbmQ 5 1 0) false false badSigma
      (fun _ => 0) 1 [(0, 1), (0, 2), (0, 3), (0, 4), (1, 1), (1, 2), (1, 3), (1, 4), (2, 2), (2, 3), (2, 4), (3, 3), (3, 4), (4, 4)] 380 1 = .ok (c1ClusterEdges 1 ++ (c1ClusterEdges 2 ++ (c1ClusterEdges 3 ++ (c1ClusterEdges 4 ++ [])))) := by
    rw [genEdgesAux, f01, Res.bind_ok]
    dsimp only
    rw [g2, Res.bind_ok]
    all_goals dsimp only [List.nil_append]
  have g0 : genEdgesAux (List.replicate 5 20) (ssbmQ 5 1 0) false false badSigma
      (fun _ => 0) 1 [(0, 0), (0, 1), (0, 2), (0, 3), (0, 4), (1, 1), (1, 2), (1, 3), (1, 4), (2, 2), (2, 3), (2, 4), (3, 3), (3, 4), (4, 4)] 0 0 = .ok (c1ClusterEdges 0 ++ (c1ClusterEdges 1 ++ (c1ClusterEdges 2 ++ (c1ClusterEdges 3 ++ (c1ClusterEdges 4 ++ []))))) := by
    rw [genEdgesAux, d0, Res.bind_ok]
    dsimp only
    rw [g1, Res.bind_ok]
    all_goals dsimp only [List.nil_append]
  have hfin : c1ClusterEdges 0 ++ (c1ClusterEdges 1 ++ (c1ClusterEdges 2 ++
      (c1ClusterEdges 3 ++ (c1ClusterEdges 4 ++ [])))) = c1Edges := by
    unfold c1Edges
    simp only [List.append_nil]
  show genEdgesAux (List.replicate 5 20) (ssbmQ 5 1 0) false false badSigma
      (fun _ => 0) 1
      [(0, 0), (0, 1), (0, 2), (0, 3), (0, 4), (1, 1), (1, 2), (1, 3), (1, 4),
        (2, 2), (2, 3), (2, 4), (3, 3), (3, 4), (4, 4)] 0 0 = .ok c1Edges
  rw [g0, hfin]

lemma c1Edges_coord {uv : ℕ × ℕ} (h : uv ∈ c1Edges) :
    ∃ i t, i < 5 ∧ t < 190 ∧
      uv = (20 * i + (offDecode t).1, 20 * i + (offDecode t).2) := by
  have hgen : ∀ i, uv ∈ c1ClusterEdges i →
      ∃ t, t < 190 ∧ uv = (20 * i + (offDecode t).1, 20 * i + (offDecode t).2) := by
    intro i hi
    unfold c1ClusterEdges at hi
    rw [List.mem_map] at hi
    obtain ⟨uv', huv', rfl⟩ := hi
    rw [List.mem_map] at huv'
    obtain ⟨t, ht, rfl⟩ := huv'
    rw [List.mem_range'_1] at ht
    exact ⟨t, by omega, rfl⟩
  unfold c1Edges at h
  simp only [List.mem_append] at h
  rcases h with h | h | h | h | h
  · obtain ⟨t, ht, he⟩ := hgen 0 h
    exact ⟨0, t, by norm_num, ht, he⟩
  · obtain ⟨t, ht, he⟩ := hgen 1 h
    exact ⟨1, t, by norm_num, ht, he⟩
  · obtain ⟨t, ht, he⟩ := hgen 2 h
    exact ⟨2, t, by norm_num, ht, he⟩
  · obtain ⟨t, ht, he⟩ := hgen 3 h
    exact ⟨3, t, by norm_num, ht, he⟩
  · obtain ⟨t, ht, he⟩ := hgen 4 h
    exact ⟨4, t, by norm_num, ht, he⟩

/-- C1 (code bug): `ssbm_adjmat(n=100, k=5, p=1, q=0)` is *not* block-diagonal
for every behaviour of the random source.  Under the draw sequence `badSigma`
the run terminates normally but the matrix lacks the intra-block entry
`(19, 18)` (vertices 18 and 19 lie in the first block of 20), because the
draws `(0,1)` and `(1,0)` were both accepted as distinct ordered pairs, using
up two of the 190 realized edges on one unordered edge. -/
theorem c1_p1_q0_not_block_complete :
    ssbm_adjmat 100 5 1 0 false badSigma (fun _ => 0) 1 =
      .ok ⟨100, c1Edges.flatMap (fun uv => [uv, (uv.2, uv.1)])⟩ ∧
    AdjMat.entry ⟨100, c1Edges.flatMap (fun uv => [uv, (uv.2, uv.1)])⟩ 19 18 = 0 ∧
    AdjMat.entry ⟨100, c1Edges.flatMap (fun uv => [uv, (uv.2, uv.1)])⟩ 1 0 = 1 := by
  refine ⟨?_, ?_, ?_⟩
  · unfold ssbm_adjmat sbm_adjmat
    rw [show (100 : ℕ) / 5 = 20 from rfl]
    rw [c1_run, Res.bind_ok]
    simp only [Bool.false_eq_true, if_false]
    rfl
  · unfold AdjMat.entry
    rw [if_neg]
    intro hmem
    rw [List.mem_flatMap] at hmem
    obtain ⟨uv, huv, hin⟩ := hmem
    obtain ⟨i, t, hi5, ht, huveq⟩ := c1Edges_coord huv
    have h9 := offDecode_fst_le9 t ht
    simp only [List.mem_cons, List.not_mem_nil, or_false] at hin
    rcases hin with h | h
    · rw [huveq] at h
      simp only [Prod.mk.injEq] at h
      omega
    · rw [huveq] at h
      simp only [Prod.mk.injEq] at h
      omega
  · unfold AdjMat.entry
    rw [if_pos]
    rw [List.mem_flatMap]
    have h19 : offDecode 19 = (1, 0) := by decide
    refine ⟨(1, 0), ?_, by simp⟩
    unfold c1Edges
    rw [List.mem_append]
    left
    unfold c1ClusterEdges
    rw [List.mem_map]
    refine ⟨offDecode 19, ?_, by rw [h19]; rfl⟩
    rw [List.mem_map]
    exact ⟨19, by rw [List.mem_range'_1]; omega, rfl⟩

/-! ### C8: termination of the rejection loop

The spec's claim quantifies over *every* behaviour of the random source.  A
source that forever redraws an already-emitted pair makes the `while True`
loop run forever: below, with one cluster of size 3 (possible-edge count 3)
and realized count 2, the stream alternating `0, 1, 0, 1, ...` draws `(0, 1)`
for the first edge and then redraws `(0, 1)` forever, so no fuel bound
suffices.  What *is* true: as long as `m` is at most the possible-edge count,
a fresh admissible pair always remains, so a suitable behaviour of the source
terminates after emitting `m` distinct pairs. -/

lemma redrawV_done {σ : ℕ → ℕ} {n u fuel v c : ℕ} (hne : v ≠ u) :
    redrawV σ n u fuel v c = .ok (v, c) := by
  rw [redrawV.eq_def]
  dsimp only
  rw [if_pos hne]

/-- One pass of the `while True` loop whose (off-diagonal) draw is already in
`edges_added`: the loop just burns fuel and retries two positions later. -/
lemma freshLoop_stuck_step {σ : ℕ → ℕ} {s1 s2 fuel : ℕ} {added : List (ℕ × ℕ)}
    {c : ℕ} (hs1 : s1 ≠ 0) (hs2 : s2 ≠ 0)
    (hne : σ (c + 1) % s2 ≠ σ c % s1)
    (hmem : (σ c % s1, σ (c + 1) % s2) ∈ added) :
    freshLoop σ s1 s2 true false (fuel + 1) added c =
      freshLoop σ s1 s2 true false fuel added (c + 2) := by
  rw [freshLoop]
  rw [show rchoice σ c s1 = .ok (σ c % s1) from by unfold rchoice; rw [if_neg hs1]]
  rw [Res.bind_ok]
  rw [show rchoice σ (c + 1) s2 = .ok (σ (c + 1) % s2) from by
    unfold rchoice; rw [if_neg hs2]]
  rw [Res.bind_ok]
  simp only [Bool.not_false, Bool.and_self, if_true]
  rw [redrawV_done hne, Res.bind_ok]
  exact if_pos hmem

/-- Against the alternating stream, once `(0, 1)` has been emitted the loop
makes no progress: every fuel bound is exhausted. -/
lemma altStuck : ∀ fuel c, c % 2 = 0 →
    freshLoop (fun i => i % 2) 3 3 true false fuel [(0, 1)] c = .timeout := by
  intro fuel
  induction fuel with
  | zero => intro c _; rfl
  | succ fuel ih =>
    intro c hc
    have hu : (fun i : ℕ => i % 2) c % 3 = 0 := by
      show c % 2 % 3 = 0
      omega
    have hv : (fun i : ℕ => i % 2) (c + 1) % 3 = 1 := by
      show (c + 1) % 2 % 3 = 1
      omega
    rw [freshLoop_stuck_step (by norm_num) (by norm_num)
      (by rw [hu, hv]; norm_num) (by rw [hu, hv]; simp)]
    exact ih (c + 2) (by omega)

/-- Against the alternating stream the two-edge sampling pass times out for
every fuel bound: the underlying Python loop never terminates. -/
lemma c8_stuck (fuel : ℕ) :
    sampleEdges (fun i => i % 2) 3 3 true false fuel 2 [] 0 = .timeout := by
  cases fuel with
  | zero => rfl
  | succ f =>
    have hu : (fun i : ℕ => i % 2) 0 % 3 = 0 := by norm_num
    have hv : (fun i : ℕ => i % 2) (0 + 1) % 3 = 1 := by norm_num
    rw [sampleEdges]
    rw [freshLoop_first (by norm_num) (by norm_num) (by rw [hu, hv]; norm_num)
      (by simp), Res.bind_ok]
    rw [hu, hv]
    rw [sampleEdges]
    rw [altStuck (f + 1) 2 (by norm_num)]
    rfl

/-- C8 counterexample: it is *not* the case that the rejection loop terminates
for every behaviour of the random source, even with `m = 2` well below the
possible-edge count 3 of an undirected 3-cluster. -/
theorem c8_nontermination_cex :
    2 ≤ get_num_pos_edges 3 3 true false false ∧
    ¬ (∀ σ : ℕ → ℕ, ∃ fuel es c',
        sampleEdges σ 3 3 true false fuel 2 [] 0 = .ok (es, c')) := by
  refine ⟨by decide, ?_⟩
  intro h
  obtain ⟨fuel, es, c', hrun⟩ := h (fun i => i % 2)
  rw [c8_stuck fuel] at hrun
  exact Res.noConfusion hrun

lemma Res.bind_congr {α β : Type} {x : Res α} {f g : α → Res β}
    (h : ∀ a, x = .ok a → f a = g a) : x.bind f = x.bind g := by
  cases x with
  | ok a => rw [Res.bind_ok, Res.bind_ok]; exact h a rfl
  | err e => rfl
  | timeout => rfl

lemma redrawV_counter_le {σ : ℕ → ℕ} {n u : ℕ} :
    ∀ fuel v c vc, redrawV σ n u fuel v c = .ok vc → c ≤ vc.2 := by
  intro fuel
  induction fuel with
  | zero =>
    intro v c vc h
    rw [redrawV.eq_def] at h
    dsimp only at h
    split at h
    · cases h
      exact le_refl c
    · exact Res.noConfusion h
  | succ fuel ih =>
    intro v c vc h
    rw [redrawV.eq_def] at h
    dsimp only at h
    split at h
    · cases h
      exact le_refl c
    · unfold rchoice at h
      split at h
      · rw [Res.bind_err] at h
        exact Res.noConfusion h
      · rw [Res.bind_ok] at h
        exact le_trans (by omega) (ih _ (c + 1) vc h)

lemma freshLoop_counter_le {σ : ℕ → ℕ} {s1 s2 : ℕ} {same loops : Bool} :
    ∀ fuel added c pc, freshLoop σ s1 s2 same loops fuel added c = .ok pc →
      c ≤ pc.2 := by
  intro fuel
  induction fuel with
  | zero =>
    intro added c pc h
    exact Res.noConfusion h
  | succ fuel ih =>
    intro added c pc h
    rw [freshLoop] at h
    unfold rchoice at h
    split at h
    · rw [Res.bind_err] at h
      exact Res.noConfusion h
    · rw [Res.bind_ok] at h
      split at h
      · rw [Res.bind_err] at h
        exact Res.noConfusion h
      · rw [Res.bind_ok] at h
        by_cases h3 : (same && !loops) = true
        · rw [if_pos h3] at h
          cases hrd : redrawV σ s2 (σ c % s1) fuel (σ (c + 1) % s2) (c + 2) with
          | ok vc =>
            rw [hrd, Res.bind_ok] at h
            have hc2 : c + 2 ≤ vc.2 := redrawV_counter_le fuel _ _ vc hrd
            split at h
            · exact le_trans (by omega) (ih added vc.2 pc h)
            · cases h
              exact le_trans (by omega) hc2
          | err e =>
            rw [hrd, Res.bind_err] at h
            exact Res.noConfusion h
          | timeout =>
            rw [hrd, Res.bind_timeout] at h
            exact Res.noConfusion h
        · rw [if_neg h3, Res.bind_ok] at h
          split at h
          · exact le_trans (by omega) (ih added (c + 2) pc h)
          · cases h
            omega

lemma redrawV_congr {σ1 σ2 : ℕ → ℕ} {n u : ℕ} :
    ∀ fuel v c, (∀ i, c ≤ i → σ1 i = σ2 i) →
      redrawV σ1 n u fuel v c = redrawV σ2 n u fuel v c := by
  intro fuel
  induction fuel with
  | zero => intro v c _; rfl
  | succ fuel ih =>
    intro v c h
    rw [redrawV.eq_def, redrawV.eq_def]
    dsimp only
    by_cases hvu : v ≠ u
    · rw [if_pos hvu, if_pos hvu]
    · rw [if_neg hvu, if_neg hvu]
      unfold rchoice
      by_cases hn : n = 0
      · rw [if_pos hn, if_pos hn]
        simp only [Res.bind_err]
      · rw [if_neg hn, if_neg hn]
        simp only [Res.bind_ok]
        rw [h c (le_refl c)]
        exact ih (σ2 c % n) (c + 1) (fun i hi => h i (by omega))

lemma freshLoop_congr {σ1 σ2 : ℕ → ℕ} {s1 s2 : ℕ} {same loops : Bool} :
    ∀ fuel added c, (∀ i, c ≤ i → σ1 i = σ2 i) →
      freshLoop σ1 s1 s2 same loops fuel added c =
        freshLoop σ2 s1 s2 same loops fuel added c := by
  intro fuel
  induction fuel with
  | zero => intro added c _; rfl
  | succ fuel ih =>
    intro added c h
    rw [freshLoop, freshLoop]
    unfold rchoice
    by_cases h1 : s1 = 0
    · rw [if_pos h1, if_pos h1]
      simp only [Res.bind_err]
    · rw [if_neg h1, if_neg h1]
      rw [h c (le_refl c)]
      simp only [Res.bind_ok]
      by_cases h2 : s2 = 0
      · rw [if_pos h2, if_pos h2]
        simp only [Res.bind_err]
      · rw [if_neg h2, if_neg h2]
        rw [h (c + 1) (by omega)]
        simp only [Res.bind_ok]
        by_cases h3 : (same && !loops) = true
        · rw [if_pos h3, if_pos h3]
          rw [redrawV_congr fuel (σ2 (c + 1) % s2) (c + 2) (fun i hi => h i (by omega))]
          apply Res.bind_congr
          intro vc hvc
          have hc2 : c + 2 ≤ vc.2 := redrawV_counter_le fuel _ _ vc hvc
          by_cases hm : (σ2 c % s1, vc.1) ∈ added
          · rw [if_pos hm, if_pos hm]
            exact ih added vc.2 (fun i hi => h i (by omega))
          · rw [if_neg hm, if_neg hm]
        · rw [if_neg h3, if_neg h3]
          apply Res.bind_congr
          intro vc hvc
          have hvc2 : vc.2 = c + 2 := by
            injection hvc with h4
            rw [← h4]
          by_cases hm : (σ2 c % s1, vc.1) ∈ added
          · rw [if_pos hm, if_pos hm]
            exact ih added vc.2 (fun i hi => h i (by omega))
          · rw [if_neg hm, if_neg hm]

lemma sampleEdges_congr {σ1 σ2 : ℕ → ℕ} {s1 s2 : ℕ} {same loops : Bool}
    {fuel : ℕ} : ∀ m added c, (∀ i, c ≤ i → σ1 i = σ2 i) →
      sampleEdges σ1 s1 s2 same loops fuel m added c =
        sampleEdges σ2 s1 s2 same loops fuel m added c := by
  intro m
  induction m with
  | zero => intro added c _; rfl
  | succ m ih =>
    intro added c h
    rw [sampleEdges, sampleEdges]
    rw [freshLoop_congr fuel added c h]
    apply Res.bind_congr
    intro pc hpc
    have hcle : c ≤ pc.2 := freshLoop_counter_le fuel added c pc hpc
    rw [ih (pc.1 :: added) pc.2 (fun i hi => h i (by omega))]

/-- The set of local pairs the rejection sampler can accept: all pairs of
`[0, s1) × [0, s2)`, minus the diagonal when the inner redraw loop is active
(same cluster without self-loops). -/
def okPairs (s1 s2 : ℕ) (noDiag : Bool) : Finset (ℕ × ℕ) :=
  if noDiag then (Finset.range s1 ×ˢ Finset.range s2).filter (fun uv => uv.1 ≠ uv.2)
  else Finset.range s1 ×ˢ Finset.range s2

lemma mem_okPairs {s1 s2 : ℕ} {nd : Bool} {uv : ℕ × ℕ} :
    uv ∈ okPairs s1 s2 nd ↔
      uv.1 < s1 ∧ uv.2 < s2 ∧ (nd = true → uv.1 ≠ uv.2) := by
  cases nd <;>
    simp [okPairs, Finset.mem_product, Finset.mem_filter, Finset.mem_range] <;>
    tauto

lemma okPairs_card_false (s1 s2 : ℕ) : (okPairs s1 s2 false).card = s1 * s2 := by
  unfold okPairs
  rw [if_neg (by simp), Finset.card_product, Finset.card_range, Finset.card_range]

lemma okPairs_card_true (s : ℕ) : (okPairs s s true).card = s * s - s := by
  unfold okPairs
  rw [if_pos rfl]
  have hdiag : (Finset.range s ×ˢ Finset.range s).filter (fun uv => uv.1 = uv.2) =
      (Finset.range s).image (fun i => (i, i)) := by
    ext ⟨a, b⟩
    simp only [Finset.mem_filter, Finset.mem_product, Finset.mem_image,
      Finset.mem_range]
    constructor
    · rintro ⟨⟨ha, _⟩, hab⟩
      exact ⟨a, ha, by rw [hab]⟩
    · rintro ⟨i, hi, hieq⟩
      obtain ⟨h1, h2⟩ := Prod.mk.injEq .. ▸ hieq
      constructor
      · constructor <;> omega
      · omega
  have himg : ((Finset.range s).image (fun i => (i, i))).card = s := by
    rw [Finset.card_image_of_injective _
      (fun a b hab => by simpa using congrArg Prod.fst hab), Finset.card_range]
  have hsplit : ((Finset.range s ×ˢ Finset.range s).filter
        (fun uv : ℕ × ℕ => uv.1 = uv.2)).card +
      ((Finset.range s ×ˢ Finset.range s).filter
        (fun uv : ℕ × ℕ => ¬uv.1 = uv.2)).card =
      (Finset.range s ×ˢ Finset.range s).card :=
    Finset.filter_card_add_filter_neg_card_eq_card _
  rw [hdiag, himg, Finset.card_product, Finset.card_range] at hsplit
  have hcongr : (Finset.range s ×ˢ Finset.range s).filter
      (fun uv : ℕ × ℕ => uv.1 ≠ uv.2) = (Finset.range s ×ˢ Finset.range s).filter
      (fun uv : ℕ × ℕ => ¬uv.1 = uv.2) := rfl
  rw [hcongr]
  omega

lemma mul_pred_add (s : ℕ) : s * (s - 1) + s = s * s := by
  cases s with
  | zero => simp
  | succ j =>
    simp only [Nat.succ_sub_one]
    ring

lemma npe_le_okPairs_card (s1 s2 : ℕ) (same loops dir : Bool)
    (hs : same = true → s2 = s1) :
    get_num_pos_edges s1 s2 same loops dir ≤
      (okPairs s1 s2 (same && !loops)).card := by
  cases same with
  | false =>
    rw [show (false && !loops) = false from rfl, okPairs_card_false, npe_diff]
  | true =>
    have hs2 : s2 = s1 := hs rfl
    subst hs2
    obtain ⟨k, hk⟩ := even_mul_pred s2
    have hid : s2 * (s2 - 1) + s2 = s2 * s2 := mul_pred_add s2
    cases loops with
    | false =>
      rw [show (true && !false) = true from rfl, okPairs_card_true]
      cases dir with
      | false =>
        rw [npe_uu]
        omega
      | true =>
        rw [npe_du]
        omega
    | true =>
      rw [show (true && !true) = false from rfl, okPairs_card_false]
      cases dir with
      | false =>
        rw [npe_ul]
        omega
      | true =>
        rw [npe_dl, pow_two]

lemma exists_fresh {s1 s2 : ℕ} {nd : Bool} {added : List (ℕ × ℕ)}
    (hnd : added.Nodup) (hsub : ∀ p ∈ added, p ∈ okPairs s1 s2 nd)
    (hcard : added.length < (okPairs s1 s2 nd).card) :
    ∃ p ∈ okPairs s1 s2 nd, p ∉ added := by
  by_contra hcon
  push_neg at hcon
  have hsubset : okPairs s1 s2 nd ⊆ added.toFinset :=
    fun p hp => List.mem_toFinset.mpr (hcon p hp)
  have hle := Finset.card_le_card hsubset
  rw [List.toFinset_card_of_nodup hnd] at hle
  omega

/-- The general first-accepted-draw lemma for one pass of the `while True`
loop, any flag combination. -/
lemma freshLoop_first' {σ : ℕ → ℕ} {s1 s2 : ℕ} {same loops : Bool} {fuel : ℕ}
    {added : List (ℕ × ℕ)} {c : ℕ}
    (hs1 : s1 ≠ 0) (hs2 : s2 ≠ 0)
    (hne : (same && !loops) = true → σ (c + 1) % s2 ≠ σ c % s1)
    (hmem : (σ c % s1, σ (c + 1) % s2) ∉ added) :
    freshLoop σ s1 s2 same loops (fuel + 1) added c =
      .ok ((σ c % s1, σ (c + 1) % s2), c + 2) := by
  rw [freshLoop]
  rw [show rchoice σ c s1 = .ok (σ c % s1) from by unfold rchoice; rw [if_neg hs1]]
  rw [Res.bind_ok]
  rw [show rchoice σ (c + 1) s2 = .ok (σ (c + 1) % s2) from by
    unfold rchoice; rw [if_neg hs2]]
  rw [Res.bind_ok]
  by_cases hc : (same && !loops) = true
  · rw [if_pos hc, redrawV_done (hne hc), Res.bind_ok]
    exact if_neg hmem
  · rw [if_neg hc, Res.bind_ok]
    exact if_neg hmem

/-- While fewer pairs have been emitted than the admissible space holds, some
behaviour of the random source supplies a fresh admissible pair at every step,
and the sampling pass succeeds with `fuel = 1`. -/
lemma sample_exists (s1 s2 : ℕ) (same loops : Bool) :
    ∀ (m : ℕ) (added : List (ℕ × ℕ)) (c : ℕ), added.Nodup →
      (∀ p ∈ added, p ∈ okPairs s1 s2 (same && !loops)) →
      added.length + m ≤ (okPairs s1 s2 (same && !loops)).card →
      ∃ σ es c', sampleEdges σ s1 s2 same loops 1 m added c = .ok (es, c') ∧
        es.length = m ∧ (es ++ added).Nodup := by
  intro m
  induction m with
  | zero =>
    intro added c hnd _ _
    exact ⟨fun _ => 0, [], c, rfl, rfl, by simpa using hnd⟩
  | succ m ih =>
    intro added c hnd hsub hcard
    obtain ⟨p, hpA, hpadded⟩ := exists_fresh hnd hsub (by omega)
    obtain ⟨u, v⟩ := p
    obtain ⟨hu, hv, hne'⟩ := mem_okPairs.mp hpA
    obtain ⟨σ', es', c'', hrun', hlen', hnd'⟩ := ih ((u, v) :: added) (c + 2)
      (List.nodup_cons.mpr ⟨hpadded, hnd⟩)
      (by
        intro q hq
        rcases List.mem_cons.mp hq with rfl | hq'
        · exact hpA
        · exact hsub q hq')
      (by
        simp only [List.length_cons]
        omega)
    set σ : ℕ → ℕ := fun i => if i = c then u else if i = c + 1 then v else σ' i
      with hσ
    have hσc : σ c % s1 = u := by
      have h : σ c = u := by simp [hσ]
      rw [h]
      exact Nat.mod_eq_of_lt hu
    have hσc1 : σ (c + 1) % s2 = v := by
      have h : σ (c + 1) = v := by
        have hne : c + 1 ≠ c := by omega
        simp [hσ, hne]
      rw [h]
      exact Nat.mod_eq_of_lt hv
    have hfl : freshLoop σ s1 s2 same loops (0 + 1) added c =
        .ok ((σ c % s1, σ (c + 1) % s2), c + 2) :=
      freshLoop_first' (by omega) (by omega)
        (by
          intro hb
          rw [hσc, hσc1]
          exact (hne' hb).symm)
        (by
          rw [hσc, hσc1]
          exact hpadded)
    rw [hσc, hσc1] at hfl
    norm_num at hfl
    refine ⟨σ, (u, v) :: es', c'', ?_, by simp [hlen'], ?_⟩
    · rw [sampleEdges]
      rw [hfl, Res.bind_ok]
      have hagree : ∀ i, c + 2 ≤ i → σ i = σ' i := by
        intro i hi
        simp only [hσ]
        rw [if_neg (by omega), if_neg (by omega)]
      rw [sampleEdges_congr m ((u, v) :: added) (c + 2) hagree, hrun', Res.bind_ok]
    · exact List.perm_middle.nodup hnd'

/-- C8 amended: whenever the realized count `m` is at most the possible-edge
count, a fresh admissible pair remains at every step, so there EXISTS a
behaviour of the random source under which the rejection loop terminates,
emitting `m` distinct local pairs (termination for *every* behaviour is
refuted by `c8_nontermination_cex`). -/
theorem c8_termination_possible (s1 s2 : ℕ) (same loops dir : Bool) (m : ℕ)
    (hs : same = true → s2 = s1)
    (hm : m ≤ get_num_pos_edges s1 s2 same loops dir) :
    ∃ σ fuel es c', sampleEdges σ s1 s2 same loops fuel m [] 0 = .ok (es, c') ∧
      es.length = m ∧ es.Nodup := by
  have hcard := npe_le_okPairs_card s1 s2 same loops dir hs
  obtain ⟨σ, es, c', hrun, hlen, hnd⟩ := sample_exists s1 s2 same loops m [] 0
    List.nodup_nil (by simp) (by simpa using le_trans hm hcard)
  exact ⟨σ, 1, es, c', hrun, hlen, by simpa using hnd⟩

/-- Witness for C8's amended statement: one cluster of size 3, undirected, no
self-loops, `m = 2 ≤ 3`. -/
theorem c8_termination_possible_witness :
    ((3 : ℕ) = 3) ∧ 2 ≤ get_num_pos_edges 3 3 true false false ∧
    ∃ σ fuel es c', sampleEdges σ 3 3 true false fuel 2 [] 0 = .ok (es, c') ∧
      es.length = 2 ∧ es.Nodup :=
  ⟨rfl, by decide,
    c8_termination_possible 3 3 true false false 2 (fun _ => rfl) (by decide)⟩

end SBM
